import Mathlib

/-!
Verification of the tool2agent incremental field validator and protocol layer.

The development shallowly embeds:
* `detectRequiresCycles` (cycle detector over the `requires` graph),
* the spec builder, evaluation-order computation and fixup engine,
* the airline example dataset and validators exercised by the unit tests,
* the protocol result types and the Zod schema generators
  (`mkValidationResultsSchema`, `mkToolCallAcceptedSchema`,
  `mkToolCallRejectedSchema`) and the AI-SDK adapter `executeFunction`.
-/

namespace Tool2Agent

/-- Scalar values flowing through tool inputs (strings and numbers suffice
for the examples and tests of this repository). -/
inductive Value where
  | str (s : String)
  | num (n : Nat)
deriving DecidableEq, Repr

/-- Outcome for a single field, mirroring `ParameterFeedback`:
a `valid` flag plus the optional feedback payload fields. -/
structure FieldOutcome where
  valid : Bool
  normalizedValue : Option Value := none
  refusalReasons : Option (List String) := none
  requiresValidParameters : Option (List String) := none
  allowedValues : Option (List Value) := none
  suggestedValues : Option (List Value) := none
deriving DecidableEq, Repr

/-- Declaration data of one field as consumed by `detectRequiresCycles`:
its `requires` and `influencedBy` name lists. -/
structure FieldDecl where
  requires : List String
  influencedBy : List String
deriving DecidableEq, Repr

/-- A spec registry for cycle detection: field names in declaration order,
each with its declaration (models the JS `Record` argument). -/
def DeclSpec := List (String × FieldDecl)

/-- Lookup of `spec[node]?.requires ?? []`. -/
def specRequires (spec : List (String × FieldDecl)) (node : String) : List String :=
  match spec.lookup node with
  | some d => d.requires
  | none => []

/-- Mutable state of the JS DFS: `visited`, `inStack` sets and the
accumulated `cycles` list. -/
structure DfsState where
  visited : List String
  inStack : List String
  cycles : List (List String)
deriving DecidableEq, Repr

/-- One recursive `dfs(node, path)` call of `detectRequiresCycles`
(src part_010), with explicit fuel for the recursion. On a node already on
the stack it records `path.slice(path.indexOf(node))`; on a visited node it
returns; otherwise it marks the node, recurses into its `requires`
neighbours with `path` extended by the node, and finally removes the node
from the stack. -/
def dfs (spec : List (String × FieldDecl)) : Nat → String → List String → DfsState → DfsState
  | 0, _, _, s => s
  | fuel + 1, node, path, s =>
    if node ∈ s.inStack then
      { s with cycles := s.cycles ++ [path.drop (path.indexOf node)] }
    else if node ∈ s.visited then s
    else
      let s1 : DfsState :=
        { s with visited := s.visited ++ [node], inStack := s.inStack ++ [node] }
      let s2 := (specRequires spec node).foldl
        (fun acc nb => dfs spec fuel nb (path ++ [node]) acc) s1
      { s2 with inStack := s2.inStack.erase node }

/-- Fuel that dominates the DFS recursion depth: every recursing level
marks a fresh node visited, and visitable nodes are the declared names plus
every name mentioned in some `requires` list. -/
def dfsFuel (spec : List (String × FieldDecl)) : Nat :=
  1 + spec.length + spec.foldl (fun a p => a + p.2.requires.length) 0

/-- Embedding of `detectRequiresCycles` (src part_010): run the DFS from
every declared key in declaration order and return the recorded cycles. -/
def detectRequiresCycles (spec : List (String × FieldDecl)) : List (List String) :=
  ((spec.map Prod.fst).foldl
    (fun s k => dfs spec (dfsFuel spec) k [] s) ⟨[], [], []⟩).cycles

/-- Construction-time failure: a `requires`/`influencedBy` reference to an
undeclared field, or one or more cycles in the `requires` graph. -/
inductive SpecError where
  | danglingReference (field ref : String)
  | cycle (cycles : List (List String))
deriving DecidableEq, Repr

/-- Declared names of a registry, in declaration order. -/
def declaredNames (decls : List (String × FieldDecl)) : List String :=
  decls.map Prod.fst

/-- First dangling reference of the registry, if any: a field whose
`requires` or `influencedBy` mentions a name not declared in the registry. -/
def findDangling (decls : List (String × FieldDecl)) : Option (String × String) :=
  decls.findSome? fun p =>
    ((p.2.requires ++ p.2.influencedBy).find?
      (fun r => !((declaredNames decls).contains r))).map fun r => (p.1, r)

/-- Modelled from the spec: `buildSpec` (the fluent builder in builder.ts is
not under src). Construction fails immediately on a dangling
`requires`/`influencedBy` reference, distinctly from a cycle, and otherwise
fails when `detectRequiresCycles` reports one or more cycles (spec sections
4.1 and 7). -/
def buildSpec (decls : List (String × FieldDecl)) :
    Except SpecError (List (String × FieldDecl)) :=
  match findDangling decls with
  | some (f, r) => .error (.danglingReference f r)
  | none =>
    match detectRequiresCycles decls with
    | [] => .ok decls
    | cs => .error (.cycle cs)

/-- One named field of a tool spec: hard dependencies (`requires`), soft
influences (`influencedBy`), a description and a validation function.
The validator receives the raw value (possibly absent) and a context view
of already-validated values; a thrown fault is modelled as `.error`. -/
structure FieldSpec where
  name : String
  requires : List String
  influencedBy : List String
  description : String
  validate : Option Value → List (String × Value) → Except String FieldOutcome

/-- Declaration data of a field spec (the part `detectRequiresCycles` and
`buildSpec` consume). -/
def FieldSpec.decl (f : FieldSpec) : FieldDecl :=
  { requires := f.requires, influencedBy := f.influencedBy }

/-- Modelled from the spec: one selection step of `toposortFields`
(validation.ts is not under src). Kahn-style: among the remaining fields,
pick the first one in declaration order whose `requires` are all already
emitted (spec section 4.2, declaration-order tie-break). -/
def pickReady (remaining : List FieldSpec) (done : List String) : Option FieldSpec :=
  remaining.find? fun f => f.requires.all fun r => done.contains r

/-- Modelled from the spec: the recursion of `toposortFields`. Each step
emits the first ready field and removes it from the remaining list; when no
field is ready (a cycle, impossible for a built spec) the order so far is
returned. -/
def toposortGo : Nat → List FieldSpec → List String → List String
  | 0, _, acc => acc
  | fuel + 1, remaining, acc =>
    match pickReady remaining acc with
    | none => acc
    | some f => toposortGo fuel (remaining.filter fun g => g.name ≠ f.name) (acc ++ [f.name])

/-- Modelled from the spec: `toposortFields` / `computeOrder`
(validation.ts is not under src): a deterministic topological order of the
field names, fields with no unresolved predecessors in declaration order. -/
def toposortFields (spec : List FieldSpec) : List String :=
  toposortGo spec.length spec []

/-- State of one fixup walk: the per-field outcomes recorded so far and the
running validated context of normalized values. -/
structure WalkState where
  outcomes : List (String × FieldOutcome)
  ctx : List (String × Value)

/-- Whether a dependency name has an outcome already recorded as valid. -/
def outcomeValid (outcomes : List (String × FieldOutcome)) (r : String) : Bool :=
  match outcomes.lookup r with
  | some o => o.valid
  | none => false

/-- The unmet subset of a `requires` list: those names whose outcome is
missing or invalid, in declaration order of the `requires` list. -/
def unmetRequires (outcomes : List (String × FieldOutcome)) (reqs : List String) :
    List String :=
  reqs.filter fun r => !(outcomeValid outcomes r)

/-- The outcome recorded for a blocked field: invalid, carrying exactly the
unmet dependencies. -/
def blockedOutcome (unmet : List String) : FieldOutcome :=
  { valid := false, requiresValidParameters := some unmet }

/-- Context view for a field: the validated context restricted to its
`requires` and currently available `influencedBy` values (spec 4.3 step 3). -/
def ctxView (f : FieldSpec) (ctx : List (String × Value)) : List (String × Value) :=
  ctx.filter fun p => f.requires.contains p.1 || f.influencedBy.contains p.1

/-- Modelled from the spec: the outcome the fixup engine records for one
field (compileFixup in validation.ts is not under src). If any required
dependency is missing or invalid the validator is not invoked and the field
is blocked; otherwise the validator runs on the raw value and the context
view, a thrown fault being absorbed as an invalid outcome with the fault
description as the only refusal reason (spec sections 4.3 and 7). -/
def fieldOutcomeAt (input : List (String × Value)) (s : WalkState) (f : FieldSpec) :
    FieldOutcome :=
  let unmet := unmetRequires s.outcomes f.requires
  if unmet.isEmpty then
    match f.validate (input.lookup f.name) (ctxView f s.ctx) with
    | .ok o => o
    | .error msg => { valid := false, refusalReasons := some [msg] }
  else blockedOutcome unmet

/-- Modelled from the spec: one step of the fixup walk. The field outcome is
recorded, and when it is valid its normalized value is stored into the
validated context (spec 4.3 step 5). -/
def processField (input : List (String × Value)) (s : WalkState) (f : FieldSpec) :
    WalkState :=
  let out := fieldOutcomeAt input s f
  { outcomes := s.outcomes ++ [(f.name, out)],
    ctx :=
      match out.valid, out.normalizedValue with
      | true, some v => s.ctx ++ [(f.name, v)]
      | _, _ => s.ctx }

/-- Modelled from the spec: the sequential fixup walk over a list of fields. -/
def walkFields (input : List (String × Value)) (fs : List FieldSpec) (s : WalkState) :
    WalkState :=
  fs.foldl (processField input) s

/-- The declared fields arranged in evaluation order. -/
def fieldsInOrder (spec : List FieldSpec) : List FieldSpec :=
  (toposortFields spec).filterMap fun n => spec.find? fun f => f.name == n

/-- Modelled from the spec: a full fixup walk of a spec on one raw input. -/
def runWalk (spec : List FieldSpec) (input : List (String × Value)) : WalkState :=
  walkFields input (fieldsInOrder spec) ⟨[], []⟩

/-- Call-level result: Accepted with the merged normalized values, or
Rejected with the per-field validation results. -/
inductive FixupResult where
  | accepted (value : List (String × Value))
  | rejected (validationResults : List (String × FieldOutcome))
deriving DecidableEq, Repr

/-- The reduced entry kept for an individually valid field in a rejection:
only its `allowedValues`/`suggestedValues` narrowing is preserved, and only
when present. -/
def narrowValid (o : FieldOutcome) : Option FieldOutcome :=
  if o.allowedValues.isSome || o.suggestedValues.isSome then
    some { valid := true, allowedValues := o.allowedValues,
           suggestedValues := o.suggestedValues }
  else none

/-- Modelled from the spec: the per-field map of a Rejected result. Every
invalid field is kept verbatim; a valid field is kept only as its
narrowing, when it has one (spec section 4.4). -/
def rejectionEntries (outcomes : List (String × FieldOutcome)) :
    List (String × FieldOutcome) :=
  outcomes.filterMap fun p =>
    if p.2.valid then (narrowValid p.2).map fun o => (p.1, o)
    else some p

/-- Modelled from the spec: `fixup` / `compileFixup` (validation.ts is not
under src). Walks the fields in evaluation order and aggregates: Accepted
with the validated context when every declared field is valid, Rejected
with the per-field entries otherwise (spec sections 4.3 and 4.4). -/
def fixup (spec : List FieldSpec) (input : List (String × Value)) : FixupResult :=
  let s := runWalk spec input
  if spec.all (fun f => outcomeValid s.outcomes f.name) then .accepted s.ctx
  else .rejected (rejectionEntries s.outcomes)

/-- One flight of the airline dataset (src part_007). -/
structure FlightEntry where
  departure : String
  arrival : String
  date : String
  seats : Nat
deriving DecidableEq, Repr

/-- Embedding of `AirlineSchedule.getAvailableFlights` (src part_007): keep
the flights matching every provided filter. -/
def getAvailableFlights (flights : List FlightEntry)
    (dep arr date : Option String) : List FlightEntry :=
  flights.filter fun f =>
    (match dep with | some d => f.departure == d | none => true) &&
    (match arr with | some a => f.arrival == a | none => true) &&
    (match date with | some d => f.date == d | none => true)

/-- Embedding of `uniq` (src part_007): deduplicate preserving the first
occurrence, as `Array.from(new Set(values))` does. -/
def uniq {α : Type} [DecidableEq α] (xs : List α) : List α :=
  xs.foldl (fun acc x => if x ∈ acc then acc else acc ++ [x]) []

/-- The six-route dataset of the unit tests (src part_007). -/
def entries : List FlightEntry :=
  [ ⟨"London", "New York", "2026-10-01", 100⟩,
    ⟨"London", "New York", "2026-10-02", 1⟩,
    ⟨"Berlin", "New York", "2026-10-03", 2⟩,
    ⟨"Berlin", "London", "2026-10-04", 2⟩,
    ⟨"Paris", "Tokyo", "2026-10-05", 50⟩,
    ⟨"New York", "Los Angeles", "2026-10-06", 25⟩ ]

/-- String content of a scalar value, when it is a string. -/
def Value.asStr : Value → Option String
  | .str s => some s
  | .num _ => none

/-- Numeric content of a scalar value, when it is a number. -/
def Value.asNum : Value → Option Nat
  | .num n => some n
  | .str _ => none

/-- Modelled from the spec: the `departure` validator of the airline
booking tool (airline.ts is not under src; behaviour fixed by the unit
tests in part_007). Its allowed values are the distinct departures of the
dataset, filtered by an `arrival` influence when available; a missing or
non-listed value is refused with `no matching options`. -/
def departureValidate (value : Option Value) (ctx : List (String × Value)) :
    Except String FieldOutcome :=
  let filtered := getAvailableFlights entries none ((ctx.lookup "arrival").bind Value.asStr) none
  let allowed := uniq (filtered.map FlightEntry.departure)
  match value.bind Value.asStr with
  | some v =>
    if allowed.contains v then
      .ok { valid := true, normalizedValue := some (.str v),
            allowedValues := some (allowed.map Value.str) }
    else
      .ok { valid := false, refusalReasons := some ["no matching options"],
            allowedValues := some (allowed.map Value.str) }
  | none =>
    .ok { valid := false, refusalReasons := some ["no matching options"],
          allowedValues := some (allowed.map Value.str) }

/-- Modelled from the spec: the `arrival` validator (requires `departure`,
influenced by `date`); allowed values are the arrivals reachable from the
validated departure. -/
def arrivalValidate (value : Option Value) (ctx : List (String × Value)) :
    Except String FieldOutcome :=
  let filtered := getAvailableFlights entries ((ctx.lookup "departure").bind Value.asStr)
    none ((ctx.lookup "date").bind Value.asStr)
  let allowed := uniq (filtered.map FlightEntry.arrival)
  match value.bind Value.asStr with
  | some v =>
    if allowed.contains v then
      .ok { valid := true, normalizedValue := some (.str v),
            allowedValues := some (allowed.map Value.str) }
    else
      .ok { valid := false, refusalReasons := some ["no matching options"],
            allowedValues := some (allowed.map Value.str) }
  | none =>
    .ok { valid := false, refusalReasons := some ["no matching options"],
          allowedValues := some (allowed.map Value.str) }

/-- Modelled from the spec: the `date` validator (requires `departure` and
`arrival`, influenced by `passengers`); allowed values are the dates of the
validated route with enough seats for the influencing passenger count. -/
def dateValidate (value : Option Value) (ctx : List (String × Value)) :
    Except String FieldOutcome :=
  let base := getAvailableFlights entries ((ctx.lookup "departure").bind Value.asStr)
    ((ctx.lookup "arrival").bind Value.asStr) none
  let filtered :=
    match (ctx.lookup "passengers").bind Value.asNum with
    | some p => base.filter fun e : FlightEntry => p ≤ e.seats
    | none => base
  let allowed := uniq (filtered.map FlightEntry.date)
  match value.bind Value.asStr with
  | some v =>
    if allowed.contains v then
      .ok { valid := true, normalizedValue := some (.str v),
            allowedValues := some (allowed.map Value.str) }
    else
      .ok { valid := false, refusalReasons := some ["no matching options"],
            allowedValues := some (allowed.map Value.str) }
  | none =>
    .ok { valid := false, refusalReasons := some ["no matching options"],
          allowedValues := some (allowed.map Value.str) }

/-- Modelled from the spec: the `passengers` validator (requires
`departure`, `arrival` and `date`); a count beyond the seats remaining on
the selected flight is refused with a seat-count-specific reason. -/
def passengersValidate (value : Option Value) (ctx : List (String × Value)) :
    Except String FieldOutcome :=
  let filtered := getAvailableFlights entries ((ctx.lookup "departure").bind Value.asStr)
    ((ctx.lookup "arrival").bind Value.asStr) ((ctx.lookup "date").bind Value.asStr)
  let maxSeats := (filtered.map FlightEntry.seats).foldl Nat.max 0
  match value.bind Value.asNum with
  | some n =>
    if n ≤ maxSeats then
      .ok { valid := true, normalizedValue := some (.num n) }
    else
      .ok { valid := false,
            refusalReasons := some ["not enough seats available (" ++ toString n ++
              " passengers, max is " ++ toString maxSeats ++ ")"] }
  | none =>
    .ok { valid := false, refusalReasons := some ["value required"] }

/-- The `departure` field declaration of the airline booking tool. -/
def departureField : FieldSpec :=
  { name := "departure", requires := [], influencedBy := ["arrival"],
    description := "City of departure", validate := departureValidate }

/-- The `arrival` field declaration of the airline booking tool. -/
def arrivalField : FieldSpec :=
  { name := "arrival", requires := ["departure"], influencedBy := ["date"],
    description := "City of arrival", validate := arrivalValidate }

/-- The `date` field declaration of the airline booking tool. -/
def dateField : FieldSpec :=
  { name := "date", requires := ["departure", "arrival"], influencedBy := ["passengers"],
    description := "Date of departure", validate := dateValidate }

/-- The `passengers` field declaration of the airline booking tool. -/
def passengersField : FieldSpec :=
  { name := "passengers", requires := ["departure", "arrival", "date"], influencedBy := [],
    description := "Number of passengers", validate := passengersValidate }

/-- Modelled from the spec: the airline booking tool spec of the unit tests
(part_007): the 4-field chain `arrival requires departure; date requires
departure, arrival; passengers requires departure, arrival, date`. -/
def airlineFields : List FieldSpec :=
  [departureField, arrivalField, dateField, passengersField]

/-! Protocol message values and the Zod schema generators
(packages/schemas/src/schemas.ts). Messages are modelled as JSON values;
objects are association lists with distinct keys. -/

/-- JSON values appearing in protocol messages. -/
inductive JVal where
  | jstr (s : String)
  | jnum (n : Nat)
  | jbool (b : Bool)
  | jarr (xs : List JVal)
  | jobj (fields : List (String × JVal))

/-- Whether a JSON value parses as `nonEmptyArray(z.string())`. -/
def isNonEmptyStrArr : JVal → Bool
  | .jarr xs =>
    !xs.isEmpty && xs.all fun v => match v with | .jstr _ => true | _ => false
  | _ => false

/-- Output schemas needed by the accepted-result generator: `z.never()` or
a strict `z.object` of string-valued keys. -/
inductive OutSchema where
  | never
  | strObj (keys : List String)
deriving DecidableEq, Repr

/-- Whether a JSON value parses against an output schema: `z.never()`
accepts nothing; a strict object accepts exactly the declared string keys. -/
def outAccepts : OutSchema → JVal → Bool
  | .never, _ => false
  | .strObj keys, .jobj fields =>
    fields.map Prod.fst == keys &&
      (fields.all fun p => match p.2 with | .jstr _ => true | _ => false)
  | .strObj _, _ => false

/-- Keys admitted by the strict object built in `mkToolCallAcceptedSchema`:
`value` is part of the shape exactly when the output schema is not
`z.never()` (the `instanceof ZodNever` check). -/
def acceptedKeys (out : OutSchema) : List String :=
  match out with
  | .never => ["ok", "feedback", "instructions"]
  | _ => ["ok", "value", "feedback", "instructions"]

/-- Embedding of `mkToolCallAcceptedSchema`
(packages/schemas/src/schemas.ts): a strict object with `ok: true`,
optional non-empty `feedback`/`instructions`, and - unless the output
schema is `z.never()` - a required `value` parsing against the output
schema. -/
def acceptedSchemaAccepts (out : OutSchema) (msg : List (String × JVal)) : Bool :=
  (msg.all fun p => (acceptedKeys out).contains p.1) &&
  (match msg.lookup "ok" with | some (.jbool true) => true | _ => false) &&
  (match out with
   | .never => true
   | _ => match msg.lookup "value" with | some v => outAccepts out v | none => false) &&
  (match msg.lookup "feedback" with | some v => isNonEmptyStrArr v | none => true) &&
  (match msg.lookup "instructions" with | some v => isNonEmptyStrArr v | none => true)

/-- Embedding of `mkValidationResultsSchema`
(packages/schemas/src/schemas.ts), abstracted over the per-key parameter
feedback schemas `pf`. With zero declared keys it is the strict empty
object `z.object(\x7b\x7d).strict()`, accepting exactly `\x7b\x7d`;
otherwise it is `atLeastOne` over the declared keys: the object must be
non-empty, mention only declared keys, and every entry must parse. -/
def vrSchemaAccepts (keys : List String) (pf : String → JVal → Bool) : JVal → Bool
  | .jobj m =>
    if keys.isEmpty then m.isEmpty
    else !m.isEmpty && (m.all fun p => keys.contains p.1 && pf p.1 p.2)
  | _ => false

/-- Embedding of `mkToolCallRejectedSchema`
(packages/schemas/src/schemas.ts): `ok: false` with optional non-empty
`feedback`/`instructions`, intersected with `atLeastOne` of
`validationResults` (parsing against the validation-results schema) and
non-empty `rejectionReasons`. -/
def rejectedSchemaAccepts (keys : List String) (pf : String → JVal → Bool)
    (msg : List (String × JVal)) : Bool :=
  (msg.all fun p =>
    (["ok", "feedback", "instructions", "validationResults",
      "rejectionReasons"].contains p.1)) &&
  (match msg.lookup "ok" with | some (.jbool false) => true | _ => false) &&
  ((msg.lookup "validationResults").isSome || (msg.lookup "rejectionReasons").isSome) &&
  (match msg.lookup "validationResults" with
   | some v => vrSchemaAccepts keys pf v | none => true) &&
  (match msg.lookup "rejectionReasons" with
   | some v => isNonEmptyStrArr v | none => true) &&
  (match msg.lookup "feedback" with | some v => isNonEmptyStrArr v | none => true) &&
  (match msg.lookup "instructions" with | some v => isNonEmptyStrArr v | none => true)

/-! The AI-SDK adapter (packages/ai/src/index.ts). A thrown JS value is
either an `Error` object (name, message, stack) or some other value,
rendered by `String(...)`. -/

/-- A value thrown by the tool body. -/
inductive JsError where
  | errObj (name msg stack : String)
  | primitive (s : String)
deriving DecidableEq, Repr

/-- Result of the adapter-level execute call: accepted with a value, or a
rejection carrying `rejectionReasons`. -/
inductive AiResult where
  | success (v : JVal)
  | failure (rejectionReasons : List String)

/-- Embedding of `handleError` of `executeFunction`
(packages/ai/src/index.ts): an `Error` with truthy message and name yields
`name: message`, other `Error`s yield the stack, and non-`Error` values are
stringified; all under the fixed prefix, as a single rejection reason. -/
def handleError (e : JsError) : AiResult :=
  match e with
  | .errObj name msg stack =>
    if msg ≠ "" && name ≠ "" then
      .failure ["Exception occured during tool call execution: " ++ name ++ ": " ++ msg]
    else
      .failure ["Exception occured during tool call execution: " ++ stack]
  | .primitive s =>
    .failure ["Exception occured during tool call execution: " ++ s]

/-- Embedding of `executeFunction` (packages/ai/src/index.ts): run the
user-supplied execute, catching any thrown value and translating it into a
rejection; the caller always receives an `AiResult`, never a fault. -/
def executeFunction (execute : List (String × JVal) → Except JsError AiResult)
    (input : List (String × JVal)) : AiResult :=
  match execute input with
  | .ok r => r
  | .error e => handleError e

/-! The protocol types (src/src/tool2agent.ts), embedded with their
`AtLeastOne`/`AtMostOne`/`NonEmptyArray` constraints, and the structural
invariants as the spec phrases them. -/

/-- A non-empty list, the embedding of the `NonEmptyArray` type. -/
def NonEmptyArray (α : Type) : Type := { l : List α // l ≠ [] }

/-- Embedding of `ParameterFeedbackRefusal`: `AtLeastOne` of optional
non-empty `refusalReasons` and `requiresValidParameters`. -/
structure ParameterFeedbackRefusalT where
  refusalReasons : Option (NonEmptyArray String)
  requiresValidParameters : Option (NonEmptyArray String)
  atLeastOne : refusalReasons.isSome ∨ requiresValidParameters.isSome

/-- Embedding of `AcceptableValues`: `AtMostOne` of `allowedValues` (a
plain, possibly empty array) and non-empty `suggestedValues`. -/
inductive AcceptableValuesT where
  | neither
  | allowed (vs : List Value)
  | suggested (vs : NonEmptyArray Value)

/-- Embedding of `ParameterFeedback`: the `valid` discriminator with the
refusal payload on the invalid branch, plus the common optional fields. -/
inductive ParameterFeedbackT where
  | valid (normalizedValue : Option Value) (acc : AcceptableValuesT)
  | invalid (refusal : ParameterFeedbackRefusalT) (normalizedValue : Option Value)
      (acc : AcceptableValuesT)

/-- Embedding of `ToolCallRejected`: `ok: false` with `AtLeastOne` of a
non-empty `validationResults` map and non-empty `rejectionReasons`. -/
structure ToolCallRejectedT where
  validationResults : Option (NonEmptyArray (String × ParameterFeedbackT))
  rejectionReasons : Option (NonEmptyArray String)
  atLeastOne : validationResults.isSome ∨ rejectionReasons.isSome

/-- The untyped field outcome denoted by a well-typed parameter feedback
value (the record shape the protocol serializes). -/
def ParameterFeedbackT.erase : ParameterFeedbackT → FieldOutcome
  | .valid nv acc =>
    { valid := true, normalizedValue := nv,
      allowedValues := match acc with | .allowed vs => some vs | _ => none,
      suggestedValues := match acc with | .suggested vs => some vs.1 | _ => none }
  | .invalid refusal nv acc =>
    { valid := false, normalizedValue := nv,
      refusalReasons := refusal.refusalReasons.map Subtype.val,
      requiresValidParameters := refusal.requiresValidParameters.map Subtype.val,
      allowedValues := match acc with | .allowed vs => some vs | _ => none,
      suggestedValues := match acc with | .suggested vs => some vs.1 | _ => none }

/-- The structural invariant on one field outcome, as the spec states it:
an invalid outcome carries at least one of `refusalReasons` or
`requiresValidParameters`; `allowedValues` and `suggestedValues` are
mutually exclusive; every present list is non-empty except
`allowedValues`, which may be empty. -/
def outcomeInvariant (o : FieldOutcome) : Prop :=
  (o.valid = false → o.refusalReasons.isSome = true ∨ o.requiresValidParameters.isSome = true)
  ∧ ¬(o.allowedValues.isSome = true ∧ o.suggestedValues.isSome = true)
  ∧ (∀ xs, o.refusalReasons = some xs → xs ≠ [])
  ∧ (∀ xs, o.requiresValidParameters = some xs → xs ≠ [])
  ∧ (∀ xs, o.suggestedValues = some xs → xs ≠ [])

/-- A field whose validator always raises a fault, used to instantiate the
fault-absorption theorem at a concrete input. -/
def faultyField : FieldSpec :=
  { name := "boom", requires := [], influencedBy := [],
    description := "a field whose validator always raises",
    validate := fun _ _ => .error "kaboom" }

/-- A field whose validator is a constant well-formed refusal, used to
instantiate the invariant-preservation theorem at a concrete input. -/
def constInvalidField : FieldSpec :=
  { name := "only", requires := [], influencedBy := [],
    description := "a field whose validator is a constant refusal",
    validate := fun _ _ => .ok { valid := false, refusalReasons := some ["r"] } }

/-! Theorems. -/

/-- C5 counterexample: the claim asserts that after finding a cycle the
detector keeps exploring so that all cycles are reported. On the spec
`A requires B, C; B requires C; C requires A` the graph contains the
two-field cycle A -> C -> A (C is required by A and A by C), yet the
detector reports only `[[A, B, C]]`: neither `[A, C]` nor `[C, A]` is in
the output, so not every cycle is reported. -/
theorem detectRequiresCycles_misses_a_cycle :
    "C" ∈ specRequires [("A", ⟨["B", "C"], []⟩), ("B", ⟨["C"], []⟩), ("C", ⟨["A"], []⟩)] "A"
    ∧ "A" ∈ specRequires [("A", ⟨["B", "C"], []⟩), ("B", ⟨["C"], []⟩), ("C", ⟨["A"], []⟩)] "C"
    ∧ detectRequiresCycles [("A", ⟨["B", "C"], []⟩), ("B", ⟨["C"], []⟩), ("C", ⟨["A"], []⟩)]
        = [["A", "B", "C"]]
    ∧ ["A", "C"] ∉
        detectRequiresCycles [("A", ⟨["B", "C"], []⟩), ("B", ⟨["C"], []⟩), ("C", ⟨["A"], []⟩)]
    ∧ ["C", "A"] ∉
        detectRequiresCycles [("A", ⟨["B", "C"], []⟩), ("B", ⟨["C"], []⟩), ("C", ⟨["A"], []⟩)] := by
  refine ⟨?_, ?_, ?_, ?_, ?_⟩ <;> decide

/-- C5 amended: a spec with the two-field cycle `A requires B, B requires
A` fails construction with a SpecError naming the cycle `[A, B]`; a found
cycle is recorded as the suffix of the current DFS path starting at the
node found on the stack (on `X requires A; A requires B; B requires A` the
path is `[X, A, B]` and the recorded cycle is the suffix `[A, B]`); and
exploration continues on the remaining unvisited nodes, so cycles in later
components are also reported - though not every cycle of the graph need
appear in the output. -/
theorem detectRequiresCycles_behaviour :
    buildSpec [("A", ⟨["B"], []⟩), ("B", ⟨["A"], []⟩)]
      = .error (.cycle [["A", "B"]])
    ∧ detectRequiresCycles
        [("X", ⟨["A"], []⟩), ("A", ⟨["B"], []⟩), ("B", ⟨["A"], []⟩)]
      = [["A", "B"]]
    ∧ detectRequiresCycles
        [("A", ⟨["B"], []⟩), ("B", ⟨["A"], []⟩), ("C", ⟨["D"], []⟩), ("D", ⟨["C"], []⟩)]
      = [["A", "B"], ["C", "D"]] := by
  refine ⟨rfl, ?_, ?_⟩ <;> decide

/-- C6: a spec in which some field requires an undeclared name fails
construction with a dangling-reference SpecError, which is distinct from a
cycle error; no fixup walk is reachable from a failed construction. -/
theorem buildSpec_dangling_fails (decls : List (String × FieldDecl))
    (h : ∃ p ∈ decls, ∃ r ∈ p.2.requires, r ∉ declaredNames decls) :
    (∃ f r, buildSpec decls = .error (.danglingReference f r))
    ∧ ∀ cs, buildSpec decls ≠ .error (.cycle cs) := by
  obtain ⟨p, hp, r, hr, hnd⟩ := h
  have hne : findDangling decls ≠ none := by
    intro hnone
    rw [findDangling, List.findSome?_eq_none_iff] at hnone
    have h1 := hnone p hp
    rw [Option.map_eq_none', List.find?_eq_none] at h1
    have h2 := h1 r (List.mem_append_left _ hr)
    simp only [Bool.not_eq_true, Bool.not_eq_false] at h2
    exact hnd (by simpa using h2)
  cases hfd : findDangling decls with
  | none => exact absurd hfd hne
  | some fr =>
    refine ⟨⟨fr.1, fr.2, ?_⟩, fun cs hcs => ?_⟩
    · simp [buildSpec, hfd]
    · rw [buildSpec, hfd] at hcs
      simp at hcs

/-- C6 witness: a one-field registry requiring the undeclared name `ghost`
fails construction with a dangling-reference error and never with a cycle. -/
theorem buildSpec_dangling_fails_witness :
    (∃ f r, buildSpec [("a", ⟨["ghost"], []⟩)] = .error (.danglingReference f r))
    ∧ ∀ cs, buildSpec [("a", ⟨["ghost"], []⟩)] ≠ .error (.cycle cs) :=
  buildSpec_dangling_fails _ (by decide)

/-- C9: with zero declared fields the validation-results schema is the
strict empty object, so a rejection carrying `validationResults: \x7b\x7d`
is accepted with no per-field entry and no top-level reason; with at least
one declared field the empty map is rejected, both on its own and inside a
rejection. -/
theorem zero_field_validationResults_waiver :
    ∀ pf : String → JVal → Bool,
      rejectedSchemaAccepts [] pf
        [("ok", .jbool false), ("validationResults", .jobj [])] = true
      ∧ vrSchemaAccepts [] pf (.jobj []) = true
      ∧ vrSchemaAccepts ["name"] pf (.jobj []) = false
      ∧ rejectedSchemaAccepts ["name"] pf
          [("ok", .jbool false), ("validationResults", .jobj [])] = false :=
  fun _ => ⟨rfl, rfl, rfl, rfl⟩

/-- C10: the runtime accepted-result schema generator disagrees with the
claim (and with the package's own tests and type definitions): for an
object output schema with keys it requires a `value` wrapper and rejects
the flattened keys; for the empty object schema it still requires `value`;
only for `z.never()` is the `value` key omitted and rejected. -/
theorem mkToolCallAcceptedSchema_wraps_value :
    acceptedSchemaAccepts (.strObj ["id", "createdAt"])
      [("ok", .jbool true), ("id", .jstr "1"), ("createdAt", .jstr "now")] = false
    ∧ acceptedSchemaAccepts (.strObj ["id", "createdAt"])
        [("ok", .jbool true),
         ("value", .jobj [("id", .jstr "1"), ("createdAt", .jstr "now")])] = true
    ∧ acceptedSchemaAccepts (.strObj []) [("ok", .jbool true)] = false
    ∧ acceptedSchemaAccepts (.strObj []) [("ok", .jbool true), ("value", .jobj [])] = true
    ∧ acceptedSchemaAccepts .never [("ok", .jbool true)] = true
    ∧ acceptedSchemaAccepts .never
        [("ok", .jbool true), ("value", .jobj [])] = false := by
  refine ⟨?_, ?_, ?_, ?_, ?_, ?_⟩ <;> rfl

/-- One walk step appends exactly the processed field's outcome entry. -/
theorem processField_outcomes (input : List (String × Value)) (s : WalkState) (f : FieldSpec) :
    (processField input s f).outcomes
      = s.outcomes ++ [(f.name, fieldOutcomeAt input s f)] := rfl

/-- The walk over a cons list processes the head first. -/
theorem walkFields_cons (input : List (String × Value)) (f : FieldSpec)
    (fs : List FieldSpec) (s : WalkState) :
    walkFields input (f :: fs) s = walkFields input fs (processField input s f) := rfl

/-- The walk splits over list concatenation. -/
theorem walkFields_append (input : List (String × Value)) (fs gs : List FieldSpec)
    (s : WalkState) :
    walkFields input (fs ++ gs) s = walkFields input gs (walkFields input fs s) := by
  simp [walkFields, List.foldl_append]

/-- The outcome keys after a walk are the starting keys followed by the
processed field names, in order. -/
theorem walkFields_outcomes_keys (input : List (String × Value)) :
    ∀ (fs : List FieldSpec) (s : WalkState),
      (walkFields input fs s).outcomes.map Prod.fst
        = s.outcomes.map Prod.fst ++ fs.map FieldSpec.name
  | [], s => by simp [walkFields]
  | f :: fs, s => by
    rw [walkFields_cons, walkFields_outcomes_keys input fs, processField_outcomes]
    simp

/-- A recorded outcome survives the rest of the walk: steps only append. -/
theorem walkFields_lookup_mono (input : List (String × Value)) :
    ∀ (fs : List FieldSpec) (s : WalkState) {k : String} {v : FieldOutcome},
      s.outcomes.lookup k = some v →
      (walkFields input fs s).outcomes.lookup k = some v
  | [], _, _, _, h => h
  | f :: fs, s, k, v, h => by
    rw [walkFields_cons]
    exact walkFields_lookup_mono input fs _ (by
      rw [processField_outcomes, List.lookup_append, h, Option.or_some])

/-- C1: when some hard dependency of a field has no outcome recorded as
valid earlier in the walk, the engine records the field as blocked -
invalid with `requiresValidParameters` exactly the unmet subset of its
`requires`, in declaration order - and the field's validator is not
invoked: replacing it by any other validator leaves the whole walk
unchanged. -/
theorem fixup_blocks_on_unmet (spec : List FieldSpec) (input : List (String × Value))
    (pre post : List FieldSpec) (f : FieldSpec)
    (horder : fieldsInOrder spec = pre ++ f :: post)
    (hpre : f.name ∉ pre.map FieldSpec.name)
    (hunmet : unmetRequires (walkFields input pre ⟨[], []⟩).outcomes f.requires ≠ []) :
    (runWalk spec input).outcomes.lookup f.name
      = some (blockedOutcome
          (unmetRequires (walkFields input pre ⟨[], []⟩).outcomes f.requires))
    ∧ ∀ v, walkFields input (pre ++ { f with validate := v } :: post) ⟨[], []⟩
        = walkFields input (pre ++ f :: post) ⟨[], []⟩ := by
  set s := walkFields input pre (⟨[], []⟩ : WalkState) with hs
  have hempty : (unmetRequires s.outcomes f.requires).isEmpty = false :=
    List.isEmpty_eq_false.mpr hunmet
  have hout : fieldOutcomeAt input s f
      = blockedOutcome (unmetRequires s.outcomes f.requires) := by
    simp [fieldOutcomeAt, hempty]
  have hlookpre : s.outcomes.lookup f.name = none := by
    rw [List.lookup_eq_none_iff]
    intro p hp
    have hkey : p.1 ∈ s.outcomes.map Prod.fst := List.mem_map_of_mem _ hp
    rw [hs, walkFields_outcomes_keys] at hkey
    simp only [List.map_nil, List.nil_append] at hkey
    exact bne_iff_ne.mpr fun he => hpre (he ▸ hkey)
  have hstep : (processField input s f).outcomes.lookup f.name
      = some (blockedOutcome (unmetRequires s.outcomes f.requires)) := by
    rw [processField_outcomes, List.lookup_append, hlookpre, hout]
    simp
  constructor
  · rw [runWalk, horder, walkFields_append, walkFields_cons]
    exact walkFields_lookup_mono input post _ hstep
  · intro v
    rw [walkFields_append, walkFields_append, walkFields_cons, walkFields_cons, ← hs]
    have hout' : fieldOutcomeAt input s { f with validate := v }
        = blockedOutcome (unmetRequires s.outcomes f.requires) := by
      simp [fieldOutcomeAt, hempty]
    have : processField input s { f with validate := v } = processField input s f := by
      simp [processField, hout, hout', blockedOutcome]
    rw [this]

/-- C1 witness: on the airline spec with an empty input, `arrival` is
blocked after the `departure` step, with the unmet subset of its requires. -/
theorem fixup_blocks_on_unmet_witness :
    (runWalk airlineFields []).outcomes.lookup arrivalField.name
      = some (blockedOutcome (unmetRequires
          (walkFields [] [departureField] ⟨[], []⟩).outcomes arrivalField.requires)) :=
  (fixup_blocks_on_unmet airlineFields [] [departureField] [dateField, passengersField]
    arrivalField rfl (by decide) (by decide)).1

/-- C7: a fault raised by a field's validator is absorbed by the engine as
that field's outcome, invalid with the fault description as the only
refusal reason; and a fault raised by the tool's execute body is caught by
the adapter and turned into a rejection with a single rejection reason -
the caller always receives a result, never a fault. -/
theorem engine_absorbs_faults :
    (∀ (input : List (String × Value)) (pre post : List FieldSpec) (f : FieldSpec)
        (msg : String),
      f.name ∉ pre.map FieldSpec.name →
      unmetRequires (walkFields input pre ⟨[], []⟩).outcomes f.requires = [] →
      f.validate (input.lookup f.name)
          (ctxView f (walkFields input pre ⟨[], []⟩).ctx) = .error msg →
      (walkFields input (pre ++ f :: post) ⟨[], []⟩).outcomes.lookup f.name
        = some { valid := false, refusalReasons := some [msg] })
    ∧ ∀ (execute : List (String × JVal) → Except JsError AiResult)
        (input : List (String × JVal)) (e : JsError),
        execute input = .error e →
        ∃ s, executeFunction execute input = .failure [s] := by
  constructor
  · intro input pre post f msg hpre hunmet hthrow
    set s := walkFields input pre (⟨[], []⟩ : WalkState) with hs
    have hempty : (unmetRequires s.outcomes f.requires).isEmpty = true := by
      rw [hunmet]
      rfl
    have hout : fieldOutcomeAt input s f
        = { valid := false, refusalReasons := some [msg] } := by
      simp [fieldOutcomeAt, hempty, hthrow]
    have hlookpre : s.outcomes.lookup f.name = none := by
      rw [List.lookup_eq_none_iff]
      intro p hp
      have hkey : p.1 ∈ s.outcomes.map Prod.fst := List.mem_map_of_mem _ hp
      rw [hs, walkFields_outcomes_keys] at hkey
      simp only [List.map_nil, List.nil_append] at hkey
      exact bne_iff_ne.mpr fun he => hpre (he ▸ hkey)
    have hstep : (processField input s f).outcomes.lookup f.name
        = some { valid := false, refusalReasons := some [msg] } := by
      rw [processField_outcomes, List.lookup_append, hlookpre, hout]
      simp
    rw [walkFields_append, walkFields_cons, ← hs]
    exact walkFields_lookup_mono input post _ hstep
  · intro execute input e he
    rw [executeFunction, he]
    cases e with
    | errObj name msg stack =>
      simp only [handleError]
      split
      · exact ⟨_, rfl⟩
      · exact ⟨_, rfl⟩
    | primitive s2 => exact ⟨_, rfl⟩

/-- C7 witness: a one-field walk whose validator raises records the fault
as that field's refusal; a throwing execute body yields a single-reason
rejection. -/
theorem engine_absorbs_faults_witness :
    (walkFields [] ([] ++ faultyField :: []) ⟨[], []⟩).outcomes.lookup faultyField.name
      = some { valid := false, refusalReasons := some ["kaboom"] }
    ∧ ∃ s, executeFunction (fun _ => .error (.primitive "boom")) [] = .failure [s] :=
  ⟨engine_absorbs_faults.1 [] [] [] faultyField "kaboom" (by decide) rfl rfl,
   engine_absorbs_faults.2 _ [] (.primitive "boom") rfl⟩

/-- A key absent from the key column of an association list has no lookup. -/
theorem lookup_eq_none_of_not_mem_keys {β : Type} {l : List (String × β)} {k : String}
    (h : k ∉ l.map Prod.fst) : l.lookup k = none := by
  rw [List.lookup_eq_none_iff]
  intro p hp
  exact bne_iff_ne.mpr fun he => h (he ▸ List.mem_map_of_mem _ hp)

/-- The evaluation order never repeats a name: each emitted field is
removed, by name, from the remaining list. -/
theorem toposortGo_nodup :
    ∀ (fuel : Nat) (rem : List FieldSpec) (acc : List String),
      acc.Nodup → (∀ g ∈ rem, g.name ∉ acc) → (toposortGo fuel rem acc).Nodup
  | 0, _, _, ha, _ => ha
  | fuel + 1, rem, acc, ha, hfresh => by
    rw [toposortGo]
    cases hpick : pickReady rem acc with
    | none => exact ha
    | some f =>
      rw [pickReady] at hpick
      have hf : f ∈ rem := List.mem_of_find?_eq_some hpick
      apply toposortGo_nodup fuel
      · simp [List.nodup_append, ha, hfresh f hf]
      · intro g hg
        have hgrem : g ∈ rem := List.mem_of_mem_filter hg
        have hgname : g.name ≠ f.name := by simpa using List.of_mem_filter hg
        simp [hfresh g hgrem, hgname]

/-- Mapping names over the order-to-field resolution is filtering the order
by resolvability. -/
theorem filterMapFind_names (spec : List FieldSpec) :
    ∀ order : List String,
      (order.filterMap fun n => spec.find? fun f => f.name == n).map FieldSpec.name
        = order.filter fun n => (spec.find? fun f => f.name == n).isSome
  | [] => rfl
  | n :: t => by
    cases hf : spec.find? (fun f => f.name == n) with
    | none => simp [List.filterMap_cons, List.filter_cons, hf, filterMapFind_names spec t]
    | some f =>
      have hn : f.name = n := by simpa using List.find?_some hf
      simp [List.filterMap_cons, List.filter_cons, hf, filterMapFind_names spec t, hn]

/-- The fields arranged in evaluation order carry pairwise distinct names. -/
theorem fieldsInOrder_names_nodup (spec : List FieldSpec) :
    ((fieldsInOrder spec).map FieldSpec.name).Nodup := by
  rw [fieldsInOrder, filterMapFind_names]
  exact (toposortGo_nodup spec.length spec [] List.nodup_nil
    (by intro g _; exact List.not_mem_nil _)).filter _

/-- Invariant of the walk: the validated context holds exactly the
normalized values of the fields recorded valid so far. -/
theorem walkFields_ctx_lookup (input : List (String × Value)) :
    ∀ (fs : List FieldSpec) (s : WalkState),
      (fs.map FieldSpec.name).Nodup →
      (∀ f ∈ fs, f.name ∉ s.outcomes.map Prod.fst) →
      (∀ n, s.ctx.lookup n
        = match s.outcomes.lookup n with
          | some o => if o.valid = true then o.normalizedValue else none
          | none => none) →
      ∀ n, (walkFields input fs s).ctx.lookup n
        = match (walkFields input fs s).outcomes.lookup n with
          | some o => if o.valid = true then o.normalizedValue else none
          | none => none
  | [], _, _, _, hinv => hinv
  | f :: fs, s, hnodup, hfresh, hinv => by
    rw [walkFields_cons]
    have hfhd : f.name ∉ fs.map FieldSpec.name := (List.nodup_cons.mp hnodup).1
    apply walkFields_ctx_lookup input fs
    · exact (List.nodup_cons.mp hnodup).2
    · intro g hg
      have h1 : g.name ∉ s.outcomes.map Prod.fst := hfresh g (List.mem_cons_of_mem _ hg)
      have h2 : g.name ≠ f.name := fun he => hfhd (he ▸ List.mem_map_of_mem _ hg)
      simp [processField_outcomes, h1, h2]
    · intro n
      by_cases hn : n = f.name
      · subst hn
        have hnone : s.outcomes.lookup f.name = none :=
          lookup_eq_none_of_not_mem_keys (hfresh f (List.mem_cons_self _ _))
        have hs' : (processField input s f).outcomes.lookup f.name
            = some (fieldOutcomeAt input s f) := by
          rw [processField_outcomes, List.lookup_append, hnone]
          simp
        have hctxnone : s.ctx.lookup f.name = none := by
          rw [hinv f.name, hnone]
        rw [hs']
        simp only [processField]
        cases hv : (fieldOutcomeAt input s f).valid with
        | false => simp [hv, hctxnone]
        | true =>
          cases hnv : (fieldOutcomeAt input s f).normalizedValue with
          | none => simp [hv, hnv, hctxnone]
          | some v => simp [hv, hnv, hctxnone, List.lookup_append]
      · have hbeq : (n == f.name) = false := beq_false_of_ne hn
        have hskip : (processField input s f).outcomes.lookup n = s.outcomes.lookup n := by
          rw [processField_outcomes, List.lookup_append]
          have hone : [(f.name, fieldOutcomeAt input s f)].lookup n = none := by
            simp [List.lookup_cons, hbeq]
          rw [hone]
          cases s.outcomes.lookup n <;> rfl
        have hctxskip : (processField input s f).ctx.lookup n = s.ctx.lookup n := by
          simp only [processField]
          cases hv : (fieldOutcomeAt input s f).valid with
          | false => simp [hv]
          | true =>
            cases hnv : (fieldOutcomeAt input s f).normalizedValue with
            | none => simp [hv, hnv]
            | some v =>
              simp only [hv, hnv, List.lookup_append]
              have hone : [(f.name, v)].lookup n = none := by
                simp [List.lookup_cons, hbeq]
              rw [hone]
              cases s.ctx.lookup n <;> rfl
        rw [hskip, hctxskip, hinv n]

/-- C2: when every declared field's outcome is valid, fixup is Accepted
with the validated context, which maps every declared field to its
validator's normalized value; in particular the six-route airline dataset
accepts the Berlin-to-London booking with the normalized value equal to
the input. -/
theorem fixup_accepts_all_valid (spec : List FieldSpec) (input : List (String × Value))
    (hall : ∀ f ∈ spec, outcomeValid (runWalk spec input).outcomes f.name = true) :
    fixup spec input = .accepted (runWalk spec input).ctx
    ∧ (∀ f ∈ spec, ∃ o, (runWalk spec input).outcomes.lookup f.name = some o
        ∧ o.valid = true
        ∧ (runWalk spec input).ctx.lookup f.name = o.normalizedValue)
    ∧ fixup airlineFields
        [("departure", .str "Berlin"), ("arrival", .str "London"),
         ("date", .str "2026-10-04"), ("passengers", .num 2)]
      = .accepted
        [("departure", .str "Berlin"), ("arrival", .str "London"),
         ("date", .str "2026-10-04"), ("passengers", .num 2)] := by
  refine ⟨?_, ?_, ?_⟩
  · rw [fixup, if_pos (List.all_eq_true.mpr hall)]
  · intro f hf
    have hv := hall f hf
    rw [outcomeValid] at hv
    cases hlk : (runWalk spec input).outcomes.lookup f.name with
    | none => rw [hlk] at hv; simp at hv
    | some o =>
      rw [hlk] at hv
      simp only [] at hv
      refine ⟨o, rfl, hv, ?_⟩
      have hinv := walkFields_ctx_lookup input (fieldsInOrder spec) ⟨[], []⟩
        (fieldsInOrder_names_nodup spec)
        (by intro g _; simp) (by intro n; rfl) f.name
      rw [runWalk] at hlk
      rw [runWalk, hinv, hlk]
      simp [hv]
  · decide

/-- C2 witness: all airline fields are valid on the Berlin-to-London
booking, and the context entry of each field is its normalized value. -/
theorem fixup_accepts_all_valid_witness :
    fixup airlineFields
      [("departure", .str "Berlin"), ("arrival", .str "London"),
       ("date", .str "2026-10-04"), ("passengers", .num 2)]
    = .accepted (runWalk airlineFields
        [("departure", .str "Berlin"), ("arrival", .str "London"),
         ("date", .str "2026-10-04"), ("passengers", .num 2)]).ctx :=
  (fixup_accepts_all_valid airlineFields
    [("departure", .str "Berlin"), ("arrival", .str "London"),
     ("date", .str "2026-10-04"), ("passengers", .num 2)] (by decide)).1

/-- Every entry kept for a rejection comes from an outcome of the same key. -/
theorem rejectionEntries_key_mem :
    ∀ {l : List (String × FieldOutcome)} {p : String × FieldOutcome},
      p ∈ rejectionEntries l → p.1 ∈ l.map Prod.fst := by
  intro l p hp
  rw [rejectionEntries, List.mem_filterMap] at hp
  obtain ⟨q, hq, hg⟩ := hp
  by_cases hv : q.2.valid = true
  · rw [if_pos hv] at hg
    cases hnar : narrowValid q.2 with
    | none => rw [hnar] at hg; exact absurd hg (by simp)
    | some w =>
      rw [hnar, Option.map_some', Option.some_inj] at hg
      rw [← hg]
      show q.1 ∈ l.map Prod.fst
      exact List.mem_map_of_mem _ hq
  · rw [if_neg hv, Option.some_inj] at hg
    rw [← hg]
    exact List.mem_map_of_mem _ hq

/-- Lookup in the rejection map of an outcome list with distinct keys:
invalid outcomes are kept verbatim, valid ones reduce to their narrowing. -/
theorem rejectionEntries_lookup :
    ∀ {l : List (String × FieldOutcome)}, (l.map Prod.fst).Nodup →
      ∀ {n : String} {o : FieldOutcome}, l.lookup n = some o →
        (rejectionEntries l).lookup n
          = if o.valid = true then narrowValid o else some o := by
  intro l
  induction l with
  | nil => intro _ n o h; simp at h
  | cons p t ih =>
    intro hnodup n o hlo
    obtain ⟨k, v⟩ := p
    have hcons : (k :: t.map Prod.fst).Nodup := by simpa using hnodup
    have hknodup : k ∉ t.map Prod.fst := (List.nodup_cons.mp hcons).1
    have htnodup : (t.map Prod.fst).Nodup := (List.nodup_cons.mp hcons).2
    rw [List.lookup_cons] at hlo
    cases hkn : (n == k) with
    | true =>
      rw [hkn] at hlo
      have hnk : n = k := by simpa using hkn
      have hov : v = o := by simpa using hlo
      subst hov
      subst hnk
      by_cases hv : v.valid = true
      · cases hnar : narrowValid v with
        | some w =>
          have heq : rejectionEntries ((n, v) :: t) = (n, w) :: rejectionEntries t := by
            simp [rejectionEntries, List.filterMap_cons, hv, hnar]
          rw [if_pos hv, heq]
          simp
        | none =>
          have heq : rejectionEntries ((n, v) :: t) = rejectionEntries t := by
            simp [rejectionEntries, List.filterMap_cons, hv, hnar]
          rw [if_pos hv, heq]
          apply lookup_eq_none_of_not_mem_keys
          intro hmem
          exact hknodup (by
            obtain ⟨q, hq, hq1⟩ := List.mem_map.mp hmem
            exact hq1 ▸ rejectionEntries_key_mem hq)
      · rw [if_neg hv]
        have hvb : v.valid = false := by simpa using hv
        have heq : rejectionEntries ((n, v) :: t) = (n, v) :: rejectionEntries t := by
          simp [rejectionEntries, List.filterMap_cons, hvb]
        rw [heq]
        simp
    | false =>
      rw [hkn] at hlo
      have hrec := ih htnodup hlo
      by_cases hv : v.valid = true
      · cases hnar : narrowValid v with
        | some w =>
          have heq : rejectionEntries ((k, v) :: t) = (k, w) :: rejectionEntries t := by
            simp [rejectionEntries, List.filterMap_cons, hv, hnar]
          rw [heq, List.lookup_cons, hkn]
          exact hrec
        | none =>
          have heq : rejectionEntries ((k, v) :: t) = rejectionEntries t := by
            simp [rejectionEntries, List.filterMap_cons, hv, hnar]
          rw [heq]
          exact hrec
      · have hvb : v.valid = false := by simpa using hv
        have heq : rejectionEntries ((k, v) :: t) = (k, v) :: rejectionEntries t := by
          simp [rejectionEntries, List.filterMap_cons, hvb]
        rw [heq, List.lookup_cons, hkn]
        exact hrec

/-- C3: when some field's outcome is invalid, fixup is Rejected with the
rejection map; that map keeps every invalid field's outcome verbatim, and
an individually valid field appears exactly when it carries an
`allowedValues`/`suggestedValues` narrowing, which is preserved. -/
theorem fixup_rejects_some_invalid (spec : List FieldSpec) (input : List (String × Value))
    (hsome : ∃ f ∈ spec, outcomeValid (runWalk spec input).outcomes f.name = false) :
    fixup spec input = .rejected (rejectionEntries (runWalk spec input).outcomes)
    ∧ (∀ n o, (runWalk spec input).outcomes.lookup n = some o → o.valid = false →
        (rejectionEntries (runWalk spec input).outcomes).lookup n = some o)
    ∧ (∀ n o, (runWalk spec input).outcomes.lookup n = some o → o.valid = true →
        (rejectionEntries (runWalk spec input).outcomes).lookup n = narrowValid o) := by
  have hnodup : ((runWalk spec input).outcomes.map Prod.fst).Nodup := by
    rw [runWalk, walkFields_outcomes_keys]
    simpa using fieldsInOrder_names_nodup spec
  refine ⟨?_, ?_, ?_⟩
  · have hcond : ¬(spec.all
        (fun f => outcomeValid (runWalk spec input).outcomes f.name) = true) := by
      intro hcond
      obtain ⟨f, hf, hfv⟩ := hsome
      have := List.all_eq_true.mp hcond f hf
      rw [hfv] at this
      exact absurd this (by simp)
    rw [fixup, if_neg hcond]
  · intro n o hlo hval
    have h := rejectionEntries_lookup hnodup hlo
    rw [hval] at h
    simpa using h
  · intro n o hlo hval
    have h := rejectionEntries_lookup hnodup hlo
    rw [hval] at h
    simpa using h

/-- C3 witness: the London-to-Tokyo attempt is rejected with the rejection
map of its walk outcomes. -/
theorem fixup_rejects_some_invalid_witness :
    fixup airlineFields [("departure", .str "London"), ("arrival", .str "Tokyo")]
      = .rejected (rejectionEntries (runWalk airlineFields
          [("departure", .str "London"), ("arrival", .str "Tokyo")]).outcomes) :=
  (fixup_rejects_some_invalid airlineFields
    [("departure", .str "London"), ("arrival", .str "Tokyo")]
    ⟨arrivalField, by simp [airlineFields], by decide⟩).1

/-- The outcome the engine records for a field satisfies the structural
invariant whenever the field's validator only returns invariant-satisfying
outcomes: blocked outcomes carry the non-empty unmet subset, absorbed
faults carry a single refusal reason. -/
theorem fieldOutcomeAt_invariant (input : List (String × Value)) (s : WalkState)
    (f : FieldSpec)
    (hval : ∀ value ctx o, f.validate value ctx = .ok o → outcomeInvariant o) :
    outcomeInvariant (fieldOutcomeAt input s f) := by
  have hdef : fieldOutcomeAt input s f
      = if (unmetRequires s.outcomes f.requires).isEmpty then
          (match f.validate (input.lookup f.name) (ctxView f s.ctx) with
           | .ok o => o
           | .error msg => { valid := false, refusalReasons := some [msg] })
        else blockedOutcome (unmetRequires s.outcomes f.requires) := rfl
  rw [hdef]
  cases hu : (unmetRequires s.outcomes f.requires).isEmpty with
  | true =>
    rw [if_pos rfl]
    cases hv : f.validate (input.lookup f.name) (ctxView f s.ctx) with
    | ok o => exact hval _ _ _ hv
    | error msg =>
      refine ⟨fun _ => Or.inl rfl, by simp, ?_, ?_, ?_⟩
      · intro xs h
        rw [Option.some_inj] at h
        subst h
        simp
      · intro xs h
        simp at h
      · intro xs h
        simp at h
  | false =>
    rw [if_neg (by simp)]
    have hne : unmetRequires s.outcomes f.requires ≠ [] := List.isEmpty_eq_false.mp hu
    refine ⟨fun _ => Or.inr (by simp [blockedOutcome]), by simp [blockedOutcome], ?_, ?_, ?_⟩
    · intro xs h
      simp [blockedOutcome] at h
    · intro xs h
      rw [blockedOutcome, Option.some_inj] at h
      subst h
      exact hne
    · intro xs h
      simp [blockedOutcome] at h

/-- Every outcome recorded by a walk satisfies the structural invariant,
provided the starting outcomes do and every walked validator only returns
invariant-satisfying outcomes. -/
theorem walkFields_outcomes_invariant (input : List (String × Value)) :
    ∀ (fs : List FieldSpec) (s : WalkState),
      (∀ f ∈ fs, ∀ value ctx o, f.validate value ctx = .ok o → outcomeInvariant o) →
      (∀ p ∈ s.outcomes, outcomeInvariant p.2) →
      ∀ p ∈ (walkFields input fs s).outcomes, outcomeInvariant p.2
  | [], _, _, hs, p, hp => hs p hp
  | f :: fs, s, hval, hs, p, hp => by
    rw [walkFields_cons] at hp
    refine walkFields_outcomes_invariant input fs _
      (fun g hg => hval g (List.mem_cons_of_mem _ hg)) ?_ p hp
    intro q hq
    rw [processField_outcomes, List.mem_append] at hq
    cases hq with
    | inl h => exact hs q h
    | inr h =>
      have hq2 : q = (f.name, fieldOutcomeAt input s f) := by simpa using h
      rw [hq2]
      exact fieldOutcomeAt_invariant input s f (hval f (List.mem_cons_self _ _))

/-- C8: the protocol's structural invariants hold. Any well-typed parameter
feedback value erases to an outcome with the at-least-one / at-most-one /
non-empty-list properties of the spec; a well-typed Rejected carries at
least one per-field entry or one top-level reason; and the fixup engine
preserves the invariants: with validators that only return
invariant-satisfying outcomes, every recorded outcome satisfies them and a
rejection over a spec whose fields all reach the walk is never empty. -/
theorem protocol_structural_invariants :
    (∀ p : ParameterFeedbackT, outcomeInvariant p.erase)
    ∧ (∀ r : ToolCallRejectedT,
        (∃ vr, r.validationResults = some vr ∧ vr.1 ≠ [])
        ∨ (∃ rs, r.rejectionReasons = some rs ∧ rs.1 ≠ []))
    ∧ ∀ (spec : List FieldSpec) (input : List (String × Value)),
        (∀ f ∈ spec, ∀ value ctx o, f.validate value ctx = .ok o → outcomeInvariant o) →
        (∀ f ∈ spec, f.name ∈ (fieldsInOrder spec).map FieldSpec.name) →
        (∀ p ∈ (runWalk spec input).outcomes, outcomeInvariant p.2)
        ∧ ∀ m, fixup spec input = .rejected m → m ≠ [] := by
  refine ⟨?_, ?_, ?_⟩
  · intro p
    cases p with
    | valid nv acc =>
      refine ⟨fun h => by simp [ParameterFeedbackT.erase] at h, ?_, ?_, ?_, ?_⟩
      · cases acc <;> simp [ParameterFeedbackT.erase]
      · intro xs h
        simp [ParameterFeedbackT.erase] at h
      · intro xs h
        simp [ParameterFeedbackT.erase] at h
      · intro xs h
        cases acc with
        | neither => simp [ParameterFeedbackT.erase] at h
        | allowed vs => simp [ParameterFeedbackT.erase] at h
        | suggested vs =>
          simp [ParameterFeedbackT.erase] at h
          rw [← h]
          exact vs.2
    | invalid refusal nv acc =>
      refine ⟨fun _ => ?_, ?_, ?_, ?_, ?_⟩
      · cases refusal.atLeastOne with
        | inl h =>
          refine Or.inl ?_
          simp [ParameterFeedbackT.erase]
          cases hr : refusal.refusalReasons with
          | none => rw [hr] at h; simp at h
          | some l => simp
        | inr h =>
          refine Or.inr ?_
          simp [ParameterFeedbackT.erase]
          cases hr : refusal.requiresValidParameters with
          | none => rw [hr] at h; simp at h
          | some l => simp
      · cases acc <;> simp [ParameterFeedbackT.erase]
      · intro xs h
        simp only [ParameterFeedbackT.erase] at h
        cases hr : refusal.refusalReasons with
        | none => rw [hr] at h; simp at h
        | some l =>
          rw [hr] at h
          simp at h
          rw [← h]
          exact l.2
      · intro xs h
        simp only [ParameterFeedbackT.erase] at h
        cases hr : refusal.requiresValidParameters with
        | none => rw [hr] at h; simp at h
        | some l =>
          rw [hr] at h
          simp at h
          rw [← h]
          exact l.2
      · intro xs h
        cases acc with
        | neither => simp [ParameterFeedbackT.erase] at h
        | allowed vs => simp [ParameterFeedbackT.erase] at h
        | suggested vs =>
          simp [ParameterFeedbackT.erase] at h
          rw [← h]
          exact vs.2
  · intro r
    cases r.atLeastOne with
    | inl h =>
      obtain ⟨vr, hvr⟩ := Option.isSome_iff_exists.mp h
      exact Or.inl ⟨vr, hvr, vr.2⟩
    | inr h =>
      obtain ⟨rs, hrs⟩ := Option.isSome_iff_exists.mp h
      exact Or.inr ⟨rs, hrs, rs.2⟩
  · intro spec input hval hcover
    have hvalord : ∀ f ∈ fieldsInOrder spec, ∀ value ctx o,
        f.validate value ctx = .ok o → outcomeInvariant o := by
      intro f hf
      rw [fieldsInOrder, List.mem_filterMap] at hf
      obtain ⟨n, _, hfind⟩ := hf
      exact hval f (List.mem_of_find?_eq_some hfind)
    constructor
    · exact walkFields_outcomes_invariant input (fieldsInOrder spec) ⟨[], []⟩
        hvalord (by intro p hp; simp at hp)
    · intro m hm
      have hnodup : ((runWalk spec input).outcomes.map Prod.fst).Nodup := by
        rw [runWalk, walkFields_outcomes_keys]
        simpa using fieldsInOrder_names_nodup spec
      rw [fixup] at hm
      by_cases hcond : spec.all
          (fun f => outcomeValid (runWalk spec input).outcomes f.name) = true
      · rw [if_pos hcond] at hm
        exact absurd hm (by simp)
      · rw [if_neg hcond] at hm
        have hminv : m = rejectionEntries (runWalk spec input).outcomes := by
          have h := hm
          simp at h
          exact h.symm
      -- some field is invalid; its entry is in the map
        have hex : ∃ f ∈ spec,
            outcomeValid (runWalk spec input).outcomes f.name = false := by
          by_contra hno
          push_neg at hno
          refine hcond (List.all_eq_true.mpr fun f hf => ?_)
          cases hb : outcomeValid (runWalk spec input).outcomes f.name with
          | true => rfl
          | false => exact absurd hb (hno f hf)
        obtain ⟨f, hf, hfv⟩ := hex
        have hmemkeys : f.name ∈ (runWalk spec input).outcomes.map Prod.fst := by
          rw [runWalk, walkFields_outcomes_keys]
          simpa using hcover f hf
        have hsomelk : ((runWalk spec input).outcomes.lookup f.name).isSome := by
          rw [List.lookup_isSome_iff]
          obtain ⟨q, hq, hq1⟩ := List.mem_map.mp hmemkeys
          exact ⟨q, hq, by simp [hq1]⟩
        obtain ⟨o, ho⟩ := Option.isSome_iff_exists.mp hsomelk
        have hov : o.valid = false := by
          rw [outcomeValid, ho] at hfv
          simpa using hfv
        have hlkr : (rejectionEntries (runWalk spec input).outcomes).lookup f.name
            = some o := by
          have h := rejectionEntries_lookup hnodup ho
          rw [hov] at h
          simpa using h
        intro hmnil
        rw [hminv] at hmnil
        rw [hmnil] at hlkr
        simp at hlkr

/-- C8 witness: on a one-field spec whose validator is a constant
well-formed refusal, every recorded outcome satisfies the invariant and
any rejection map is non-empty. -/
theorem protocol_structural_invariants_witness :
    (∀ p ∈ (runWalk [constInvalidField] []).outcomes, outcomeInvariant p.2)
    ∧ ∀ m, fixup [constInvalidField] [] = .rejected m → m ≠ [] :=
  protocol_structural_invariants.2.2 [constInvalidField] []
    (by
      intro f hf value ctx o ho
      rw [List.mem_singleton] at hf
      subst hf
      have hK : o = { valid := false, refusalReasons := some ["r"] } := by
        have := ho.symm
        simpa [constInvalidField] using this
      subst hK
      refine ⟨fun _ => Or.inl rfl, by simp, ?_, ?_, ?_⟩
      · intro xs h
        rw [Option.some_inj] at h
        subst h
        simp
      · intro xs h
        simp at h
      · intro xs h
        simp at h)
    (by
      intro f hf
      rw [List.mem_singleton] at hf
      subst hf
      decide)

/-- Filtering strictly shrinks a list that has a member failing the
predicate. -/
theorem length_filter_lt {α : Type} (p : α → Bool) :
    ∀ (l : List α) (a : α), a ∈ l → p a = false → (l.filter p).length < l.length := by
  intro l
  induction l with
  | nil => intro a ha _; exact absurd ha (List.not_mem_nil a)
  | cons x t ih =>
    intro a ha hpa
    rcases List.mem_cons.mp ha with rfl | hat
    · have h1 := List.length_filter_le p t
      rw [List.filter_cons, hpa, if_neg (by simp)]
      simp only [List.length_cons]
      omega
    · cases hx : p x with
      | true =>
        have h1 := ih a hat hpa
        rw [List.filter_cons, hx, if_pos rfl]
        simp only [List.length_cons]
        omega
      | false =>
        have h1 := ih a hat hpa
        rw [List.filter_cons, hx, if_neg (by simp)]
        simp only [List.length_cons]
        omega

/-- Every non-empty list has an element of minimal measure. -/
theorem exists_min_measure {α : Type} (m : α → Nat) :
    ∀ (l : List α), l ≠ [] → ∃ a ∈ l, ∀ b ∈ l, m a ≤ m b := by
  intro l
  induction l with
  | nil => intro h; exact absurd rfl h
  | cons x t ih =>
    intro _
    by_cases ht : t = []
    · subst ht
      refine ⟨x, List.mem_cons_self _ _, ?_⟩
      intro b hb
      rcases List.mem_cons.mp hb with rfl | hb2
      · exact Nat.le_refl _
      · exact absurd hb2 (List.not_mem_nil b)
    · obtain ⟨a, hat, hmin⟩ := ih ht
      by_cases hxa : m x ≤ m a
      · refine ⟨x, List.mem_cons_self _ _, ?_⟩
        intro b hb
        rcases List.mem_cons.mp hb with rfl | hb2
        · exact Nat.le_refl _
        · exact Nat.le_trans hxa (hmin b hb2)
      · refine ⟨a, List.mem_cons_of_mem _ hat, ?_⟩
        intro b hb
        rcases List.mem_cons.mp hb with rfl | hb2
        · exact Nat.le_of_lt (Nat.lt_of_not_le hxa)
        · exact hmin b hb2

/-- Step equation of the sort when no field is ready. -/
theorem toposortGo_none {fuel : Nat} {rem : List FieldSpec} {acc : List String}
    (h : pickReady rem acc = none) : toposortGo (fuel + 1) rem acc = acc := by
  rw [toposortGo, h]

/-- Step equation of the sort when a field is picked. -/
theorem toposortGo_some {fuel : Nat} {rem : List FieldSpec} {acc : List String}
    {f : FieldSpec} (h : pickReady rem acc = some f) :
    toposortGo (fuel + 1) rem acc
      = toposortGo fuel (rem.filter fun g => g.name ≠ f.name) (acc ++ [f.name]) := by
  rw [toposortGo, h]

/-- The sort only appends to the accumulator. -/
theorem toposortGo_prefix :
    ∀ (fuel : Nat) (rem : List FieldSpec) (acc : List String),
      ∃ t, toposortGo fuel rem acc = acc ++ t
  | 0, _, acc => ⟨[], (List.append_nil acc).symm⟩
  | fuel + 1, rem, acc => by
    cases hpick : pickReady rem acc with
    | none => exact ⟨[], by rw [toposortGo_none hpick, List.append_nil]⟩
    | some f =>
      obtain ⟨t, ht⟩ :=
        toposortGo_prefix fuel (rem.filter fun g => g.name ≠ f.name) (acc ++ [f.name])
      exact ⟨f.name :: t, by rw [toposortGo_some hpick, ht, List.append_assoc]; rfl⟩

/-- Completeness of the sort under acyclicity: with a measure that strictly
drops along `requires` edges, and every required name either already
emitted or still remaining, every remaining field is eventually emitted. -/
theorem toposortGo_complete (m : String → Nat) :
    ∀ (fuel : Nat) (rem : List FieldSpec) (acc : List String),
      rem.length ≤ fuel →
      (∀ f ∈ rem, ∀ r ∈ f.requires, r ∈ acc ∨ r ∈ rem.map FieldSpec.name) →
      (∀ f ∈ rem, ∀ r ∈ f.requires, m r < m f.name) →
      ∀ f ∈ rem, f.name ∈ toposortGo fuel rem acc := by
  intro fuel
  induction fuel with
  | zero =>
    intro rem acc hlen _ _ f hf
    have hnil : rem = [] := List.eq_nil_of_length_eq_zero (Nat.le_zero.mp hlen)
    subst hnil
    exact absurd hf (List.not_mem_nil f)
  | succ fuel ih =>
    intro rem acc hlen hverts hmeas f hf
    obtain ⟨g, hg, hgmin⟩ :=
      exists_min_measure (fun x => m x.name) rem (List.ne_nil_of_mem hf)
    have hready : (g.requires.all fun r => acc.contains r) = true := by
      rw [List.all_eq_true]
      intro r hr
      rcases hverts g hg r hr with hacc | hrem
      · simpa using hacc
      · obtain ⟨q, hq, hq1⟩ := List.mem_map.mp hrem
        have h1 := hmeas g hg r hr
        have h2 := hgmin q hq
        rw [hq1] at h2
        omega
    have hpicksome : (pickReady rem acc).isSome := by
      rw [pickReady, List.find?_isSome]
      exact ⟨g, hg, hready⟩
    obtain ⟨h, hpickeq⟩ := Option.isSome_iff_exists.mp hpicksome
    have hhmem : h ∈ rem := by
      rw [pickReady] at hpickeq
      exact List.mem_of_find?_eq_some hpickeq
    rw [toposortGo_some hpickeq]
    have hlen2 : (rem.filter fun g2 => g2.name ≠ h.name).length ≤ fuel := by
      have hlt : (rem.filter fun g2 => g2.name ≠ h.name).length < rem.length := by
        apply length_filter_lt _ rem h hhmem
        simp
      omega
    have hverts2 : ∀ f2 ∈ (rem.filter fun g2 => g2.name ≠ h.name), ∀ r ∈ f2.requires,
        r ∈ acc ++ [h.name]
          ∨ r ∈ (rem.filter fun g2 => g2.name ≠ h.name).map FieldSpec.name := by
      intro f2 hf2 r hr
      have hf2rem : f2 ∈ rem := List.mem_of_mem_filter hf2
      rcases hverts f2 hf2rem r hr with hacc | hrem
      · exact Or.inl (List.mem_append_left _ hacc)
      · obtain ⟨q, hq, hq1⟩ := List.mem_map.mp hrem
        by_cases hqh : q.name = h.name
        · refine Or.inl (List.mem_append_right _ ?_)
          rw [← hq1, hqh]
          simp
        · have hq2 : q ∈ rem.filter fun g2 => g2.name ≠ h.name :=
            List.mem_filter.mpr ⟨hq, by simpa using hqh⟩
          exact Or.inr (hq1 ▸ List.mem_map_of_mem _ hq2)
    have hmeas2 : ∀ f2 ∈ (rem.filter fun g2 => g2.name ≠ h.name), ∀ r ∈ f2.requires,
        m r < m f2.name :=
      fun f2 hf2 => hmeas f2 (List.mem_of_mem_filter hf2)
    by_cases hfh : f.name = h.name
    · obtain ⟨t, ht⟩ :=
        toposortGo_prefix fuel (rem.filter fun g2 => g2.name ≠ h.name) (acc ++ [h.name])
      rw [ht]
      refine List.mem_append_left _ (List.mem_append_right _ ?_)
      rw [hfh]
      simp
    · have hf2 : f ∈ rem.filter fun g2 => g2.name ≠ h.name :=
        List.mem_filter.mpr ⟨hf, by simpa using hfh⟩
      exact ih _ _ hlen2 hverts2 hmeas2 f hf2

/-- Placement: an emitted field appears after all members of its
`requires` set, the requires having been emitted before the field. -/
theorem toposortGo_places :
    ∀ (fuel : Nat) (rem : List FieldSpec) (acc : List String),
      acc.Nodup → (∀ g ∈ rem, g.name ∉ acc) → (rem.map FieldSpec.name).Nodup →
      ∀ f ∈ rem, f.name ∈ toposortGo fuel rem acc →
        ∀ r ∈ f.requires,
          (toposortGo fuel rem acc).indexOf r < (toposortGo fuel rem acc).indexOf f.name := by
  intro fuel
  induction fuel with
  | zero =>
    intro rem acc _ hfresh _ f hf hmem r _
    exact absurd hmem (hfresh f hf)
  | succ fuel ih =>
    intro rem acc hacc hfresh hnames f hf hmem r hr
    cases hpickeq : pickReady rem acc with
    | none =>
      rw [toposortGo_none hpickeq] at hmem
      exact absurd hmem (hfresh f hf)
    | some h =>
      have hhmem : h ∈ rem := by
        rw [pickReady] at hpickeq
        exact List.mem_of_find?_eq_some hpickeq
      have hhready : (h.requires.all fun r2 => acc.contains r2) = true := by
        rw [pickReady] at hpickeq
        have hp := List.find?_some hpickeq
        exact hp
      rw [toposortGo_some hpickeq] at hmem ⊢
      have hfreshname : h.name ∉ acc := hfresh h hhmem
      have hacc2 : (acc ++ [h.name]).Nodup := by
        simp [List.nodup_append, hacc, hfreshname]
      have hfresh2 : ∀ g ∈ (rem.filter fun g2 => g2.name ≠ h.name),
          g.name ∉ acc ++ [h.name] := by
        intro g hg
        have hgrem := List.mem_of_mem_filter hg
        have hgname : g.name ≠ h.name := by simpa using (List.mem_filter.mp hg).2
        simp [hfresh g hgrem, hgname]
      have hnames2 : ((rem.filter fun g2 => g2.name ≠ h.name).map FieldSpec.name).Nodup :=
        List.Nodup.sublist ((List.filter_sublist rem).map FieldSpec.name) hnames
      by_cases hfh : f = h
      · subst hfh
        obtain ⟨t, ht⟩ :=
          toposortGo_prefix fuel (rem.filter fun g2 => g2.name ≠ f.name) (acc ++ [f.name])
        rw [ht, List.append_assoc, List.singleton_append]
        have hrin : r ∈ acc := by
          have := List.all_eq_true.mp hhready r hr
          simpa using this
        rw [List.indexOf_append_of_mem hrin, List.indexOf_append_of_not_mem hfreshname]
        have h1 : List.indexOf r acc < acc.length := List.indexOf_lt_length.mpr hrin
        have h2 : List.indexOf f.name (f.name :: t) = 0 := List.indexOf_cons_self _ _
        omega
      · have hfname : f.name ≠ h.name := fun he =>
          hfh (List.inj_on_of_nodup_map hnames hf hhmem he)
        have hf2 : f ∈ rem.filter fun g2 => g2.name ≠ h.name :=
          List.mem_filter.mpr ⟨hf, by simpa using hfname⟩
        exact ih _ _ hacc2 hfresh2 hnames2 f hf2 hmem r hr

/-- Tie-break: of two zero-dependency fields, the one declared first is
emitted first. -/
theorem toposortGo_tiebreak :
    ∀ (fuel : Nat) (rem : List FieldSpec) (acc : List String),
      (∀ g ∈ rem, g.name ∉ acc) → (rem.map FieldSpec.name).Nodup →
      ∀ f g : FieldSpec, [f, g].Sublist rem → f.requires = [] → g.requires = [] →
        g.name ∈ toposortGo fuel rem acc →
        (toposortGo fuel rem acc).indexOf f.name
          < (toposortGo fuel rem acc).indexOf g.name := by
  intro fuel
  induction fuel with
  | zero =>
    intro rem acc hfresh _ f g hsub _ _ hgmem
    have hgrem : g ∈ rem := hsub.subset (by simp)
    exact absurd hgmem (hfresh g hgrem)
  | succ fuel ih =>
    intro rem acc hfresh hnames f g hsub hfreq hgreq hgmem
    have hfrem : f ∈ rem := hsub.subset (by simp)
    have hgrem : g ∈ rem := hsub.subset (by simp)
    obtain ⟨r1, r2, hrem_eq, hfr1, hsubg⟩ := List.cons_sublist_iff.mp hsub
    have hgr2 : g ∈ r2 := List.singleton_sublist.mp hsubg
    have hfready : (f.requires.all fun r => acc.contains r) = true := by
      rw [hfreq]
      rfl
    cases hpickeq : pickReady rem acc with
    | none =>
      rw [toposortGo_none hpickeq] at hgmem
      exact absurd hgmem (hfresh g hgrem)
    | some h =>
      have hhmem : h ∈ rem := by
        rw [pickReady] at hpickeq
        exact List.mem_of_find?_eq_some hpickeq
      -- the picked field lies in the prefix part r1
      have hhr1 : h ∈ r1 := by
        rw [pickReady, hrem_eq, List.find?_append] at hpickeq
        cases hfind1 : r1.find? fun f2 => f2.requires.all fun r => acc.contains r with
        | none =>
          have : (r1.find? fun f2 => f2.requires.all fun r => acc.contains r).isSome := by
            rw [List.find?_isSome]
            exact ⟨f, hfr1, hfready⟩
          rw [hfind1] at this
          simp at this
        | some h1 =>
          rw [hfind1] at hpickeq
          simp only [Option.or_some, Option.some_inj] at hpickeq
          rw [← hpickeq]
          exact List.mem_of_find?_eq_some hfind1
      -- names of r1 and r2 are disjoint, so h.name differs from g.name
      have hnames_split : ((r1.map FieldSpec.name) ++ (r2.map FieldSpec.name)).Nodup := by
        rw [← List.map_append, ← hrem_eq]
        exact hnames
      have hhg : h.name ≠ g.name := by
        intro he
        have hd := (List.nodup_append.mp hnames_split).2.2
        exact hd (List.mem_map_of_mem _ hhr1) (he ▸ List.mem_map_of_mem _ hgr2)
      have hfreshh : h.name ∉ acc := hfresh h hhmem
      rw [toposortGo_some hpickeq] at hgmem ⊢
      by_cases hhf : h.name = f.name
      · -- f is emitted at this step: its index is acc.length, g comes later
        obtain ⟨t, ht⟩ :=
          toposortGo_prefix fuel (rem.filter fun g2 => g2.name ≠ h.name) (acc ++ [h.name])
        rw [ht, List.append_assoc, List.singleton_append]
        have hfreshg : g.name ∉ acc := hfresh g hgrem
        have hfin : List.indexOf f.name (acc ++ h.name :: t) = acc.length := by
          rw [List.indexOf_append_of_not_mem (hhf ▸ hfreshh)]
          rw [← hhf, List.indexOf_cons_self]
          omega
        have hgin : acc.length < List.indexOf g.name (acc ++ h.name :: t) := by
          rw [List.indexOf_append_of_not_mem hfreshg]
          have := List.indexOf_cons_ne t (a := g.name) (b := h.name) hhg
          omega
        omega
      · -- some other field is emitted; recurse on the filtered list
        have hff : h.name ∉ [f, g].map FieldSpec.name := by
          intro hmem2
          rcases List.mem_map.mp hmem2 with ⟨q, hq, hq1⟩
          rcases List.mem_cons.mp hq with rfl | hq2
          · exact hhf hq1.symm
          · have hqg : q = g := by simpa using hq2
            subst hqg
            exact hhg hq1.symm
      -- [f, g] survives the filter
        have hsub2 : [f, g].Sublist (rem.filter fun g2 => g2.name ≠ h.name) := by
          have hfilter_eq : ([f, g].filter fun g2 => g2.name ≠ h.name) = [f, g] := by
            have hf1 : f.name ≠ h.name := fun he => hhf he.symm
            have hg1 : g.name ≠ h.name := fun he => hhg he.symm
            simp [List.filter_cons, hf1, hg1]
          rw [← hfilter_eq]
          exact hsub.filter _
        have hfresh2 : ∀ g2 ∈ (rem.filter fun g3 => g3.name ≠ h.name),
            g2.name ∉ acc ++ [h.name] := by
          intro g2 hg2
          have hg2rem := List.mem_of_mem_filter hg2
          have hg2name : g2.name ≠ h.name := by simpa using (List.mem_filter.mp hg2).2
          simp [hfresh g2 hg2rem, hg2name]
        have hnames2 : ((rem.filter fun g2 => g2.name ≠ h.name).map FieldSpec.name).Nodup :=
          List.Nodup.sublist ((List.filter_sublist rem).map FieldSpec.name) hnames
        exact ih _ _ hfresh2 hnames2 f g hsub2 hfreq hgreq hgmem

/-- C4: for an acyclic spec (witnessed by a measure strictly decreasing
along `requires` edges, with declared dependencies and distinct names) the
computed evaluation order contains every field, places every field after
all members of its `requires` set, is identical across repeated calls, and
orders zero-dependency fields by their declaration order. -/
theorem computeOrder_correct (spec : List FieldSpec) (m : String → Nat)
    (hnodup : (spec.map FieldSpec.name).Nodup)
    (hdecl : ∀ f ∈ spec, ∀ r ∈ f.requires, r ∈ spec.map FieldSpec.name)
    (hacyc : ∀ f ∈ spec, ∀ r ∈ f.requires, m r < m f.name) :
    (∀ f ∈ spec, f.name ∈ toposortFields spec)
    ∧ (∀ f ∈ spec, ∀ r ∈ f.requires,
        (toposortFields spec).indexOf r < (toposortFields spec).indexOf f.name)
    ∧ toposortFields spec = toposortFields spec
    ∧ (∀ f g : FieldSpec, [f, g].Sublist spec → f.requires = [] → g.requires = [] →
        (toposortFields spec).indexOf f.name < (toposortFields spec).indexOf g.name) := by
  have hcomp : ∀ f ∈ spec, f.name ∈ toposortFields spec := by
    intro f hf
    exact toposortGo_complete m spec.length spec [] (Nat.le_refl _)
      (fun f2 hf2 r hr => Or.inr (hdecl f2 hf2 r hr)) hacyc f hf
  refine ⟨hcomp, ?_, rfl, ?_⟩
  · intro f hf r hr
    exact toposortGo_places spec.length spec [] List.nodup_nil
      (fun g _ => List.not_mem_nil _) hnodup f hf (hcomp f hf) r hr
  · intro f g hsub hfreq hgreq
    have hgspec : g ∈ spec := hsub.subset (by simp)
    exact toposortGo_tiebreak spec.length spec []
      (fun g2 _ => List.not_mem_nil _) hnodup f g hsub hfreq hgreq (hcomp g hgspec)

/-- C4 witness: on the airline spec, with the chain depth as measure,
`departure` precedes `arrival` in the computed order. -/
theorem computeOrder_correct_witness :
    (toposortFields airlineFields).indexOf "departure"
      < (toposortFields airlineFields).indexOf arrivalField.name :=
  (computeOrder_correct airlineFields
    (fun n => if n = "departure" then 0 else if n = "arrival" then 1
      else if n = "date" then 2 else 3)
    (by decide) (by decide) (by decide)).2.1
    arrivalField (by simp [airlineFields]) "departure" (by decide)

end Tool2Agent
